import Mathlib

/-!
Verification development for the ro9scrapers repository.

The definitions below are a shallow embedding of the Python sources:
  * `src/sec.gov/sec_02.py` (`_parse_item_1c`, `_parse_entity`, `not_decendants`),
  * `src/sec.gov/sec_01.py` (`parse_method_1`, `parse_entity`, `not_decendants`,
    `get_10k`, `main`),
  * `src/sec.gov/sec_00.py` (`remove_decendants`),
  * `src/journals_scraper/main.py` (`JournalScraper._get_journals`,
    `JournalScraper.run`),
  * `src/griffith.edu.au/main.py` (`get_scholarship`, `main`).

Strings are modelled as `List Char`; HTML documents as the `HNode` tree type,
with nodes identified by their root path (`Path`).  External collaborators
(the `markdownify` + `html.unescape` renderer) are passed as an explicit
function parameter `md`.
-/

namespace Scrape

/-- Convert a string literal to the `List Char` representation used throughout. -/
def lc (s : String) : List Char := s.toList

/-- Lower-casing of ASCII letters, modelling the effect of Python's `re.I` flag
on the character ranges appearing in the sources. -/
def lowChar (c : Char) : Char :=
  if 'A' ≤ c ∧ c ≤ 'Z' then Char.ofNat (c.toNat + 32) else c

/-- Case-insensitive character comparison (`re.I`). -/
def ciEq (a b : Char) : Bool := lowChar a = lowChar b

/-- Python's `\s` character class (ASCII whitespace plus NBSP). -/
def pyWs (c : Char) : Bool :=
  c = ' ' ∨ c = '\t' ∨ c = '\n' ∨ c = '\r' ∨
  c = Char.ofNat 11 ∨ c = Char.ofNat 12 ∨ c = Char.ofNat 160

/-- XPath whitespace, as collapsed by `normalize-space`. -/
def xmlWs (c : Char) : Bool :=
  c = ' ' ∨ c = '\t' ∨ c = '\n' ∨ c = '\r'

/-- Maximal words of non-`w` characters, used to implement `normalize-space`.
The fuel argument (initialised to the input length, which every recursive
call strictly decreases) keeps the recursion structural. -/
def wordsByF (w : Char → Bool) : Nat → List Char → List (List Char)
  | 0, _ => []
  | _, [] => []
  | fuel + 1, c :: rest =>
    if w c then wordsByF w fuel rest
    else (c :: rest.takeWhile (fun d => !w d)) :: wordsByF w fuel (rest.dropWhile (fun d => !w d))

def wordsBy (w : Char → Bool) (s : List Char) : List (List Char) := wordsByF w s.length s

/-- XPath `normalize-space`: trim and collapse internal whitespace runs. -/
def normSpace (s : List Char) : List Char :=
  List.intercalate [' '] (wordsBy xmlWs s)

/-- Python `re.sub(r"\s+", " ", s)`: every whitespace run becomes one space
(edges included, no trimming). -/
def pySubWsF : Nat → List Char → List Char
  | 0, _ => []
  | _, [] => []
  | fuel + 1, c :: rest =>
    if pyWs c then ' ' :: pySubWsF fuel (rest.dropWhile pyWs)
    else c :: pySubWsF fuel rest

def pySubWs (s : List Char) : List Char := pySubWsF s.length s

/-- Python `re.sub(r"[\n\xa0]", " ", s)` from `_parse_entity`. -/
def pySubNlNbsp (s : List Char) : List Char :=
  s.map (fun c => if c = '\n' ∨ c = Char.ofNat 160 then ' ' else c)

/-- Python `str.strip()`. -/
def pyStrip (s : List Char) : List Char :=
  ((s.dropWhile pyWs).reverse.dropWhile pyWs).reverse

/-- Python `str.isdigit()`: non-empty and all (ASCII) digits. -/
def isDigitStr (s : List Char) : Bool :=
  !s.isEmpty && s.all (fun c => '0' ≤ c ∧ c ≤ '9')

/-- Python `str.isspace()`: non-empty and all whitespace. -/
def isSpaceStr (s : List Char) : Bool :=
  !s.isEmpty && s.all pyWs

/-- Boolean test that `pat` is an initial segment of `s`. -/
def startsW : List Char → List Char → Bool
  | [], _ => true
  | _ :: _, [] => false
  | a :: as, b :: bs => a = b && startsW as bs

/-- Substring containment (used for `comment()[contains(., "Sequence")]`). -/
def hasSub (pat : List Char) : List Char → Bool
  | [] => startsW pat []
  | l@(_ :: rest) => startsW pat l || hasSub pat rest

/-- Python `str.replace(pat, repl)`: left-to-right, non-overlapping. -/
def replaceAllF (pat repl : List Char) : Nat → List Char → List Char
  | 0, _ => []
  | _, [] => []
  | fuel + 1, c :: rest =>
    if startsW pat (c :: rest) ∧ pat ≠ [] then
      repl ++ replaceAllF pat repl fuel ((c :: rest).drop pat.length)
    else c :: replaceAllF pat repl fuel rest

def replaceAll (pat repl s : List Char) : List Char := replaceAllF pat repl s.length s

/-- Python `re.sub(r"\n{3,}", "\n\n", s)` (the tail of `_parse_item_1c`). -/
def collapse3NLF : Nat → List Char → List Char
  | 0, _ => []
  | _, [] => []
  | fuel + 1, c :: rest =>
    if c = '\n' then
      let run := 1 + (rest.takeWhile (fun d => d = '\n')).length
      (if 3 ≤ run then lc "\n\n" else List.replicate run '\n') ++
        collapse3NLF fuel (rest.dropWhile (fun d => d = '\n'))
    else c :: collapse3NLF fuel rest

def collapse3NL (s : List Char) : List Char := collapse3NLF s.length s

/-- Character class `[\s\xa0​]` of `parse_method_1`'s newline cleanup. -/
def wsCls01 (c : Char) : Bool := pyWs c ∨ c = Char.ofNat 0x200b

/-- Index of the last newline of a list, if any. -/
def lastNlPos (l : List Char) : Option Nat :=
  match l.reverse.findIdx? (fun c => c = '\n') with
  | none => none
  | some i => some (l.length - 1 - i)

/-- Python `re.sub(r"\n[\s\xa0​]+\n", "\n\n", s)` with the usual
backtracking semantics: the closing newline is the last newline available
inside the greedy whitespace run. -/
def subNlWsNlF : Nat → List Char → List Char
  | 0, _ => []
  | _, [] => []
  | fuel + 1, c :: rest =>
    if c = '\n' then
      match lastNlPos ((rest.takeWhile wsCls01).drop 1) with
      | some i => lc "\n\n" ++ subNlWsNlF fuel (rest.drop (i + 2))
      | none => '\n' :: subNlWsNlF fuel rest
    else c :: subNlWsNlF fuel rest

def subNlWsNl (s : List Char) : List Char := subNlWsNlF s.length s

/-! ### Marker-pattern scanning (`re.findall` on the document text) -/

/-- Match a literal pattern case-insensitively, returning the remaining input. -/
def matchLitCI : List Char → List Char → Option (List Char)
  | [], s => some s
  | _ :: _, [] => none
  | p :: ps, c :: rest => if ciEq p c then matchLitCI ps rest else none

/-- Match `\s+` (greedy), returning the remaining input. -/
def wsPlus (s : List Char) : Option (List Char) :=
  if (s.takeWhile pyWs).isEmpty then none else some (s.dropWhile pyWs)

/-- Matcher for the start pattern `item\s+1c` (re.I). -/
def matchStart (s : List Char) : Option (List Char) :=
  ((matchLitCI (lc "item") s).bind wsPlus).bind (matchLitCI (lc "1c"))

/-- Matcher for `sec_02`'s end pattern `item\s+1d|item\s+2{1}` (re.I). -/
def matchEnd02 (s : List Char) : Option (List Char) :=
  match (matchLitCI (lc "item") s).bind wsPlus with
  | none => none
  | some r =>
    match matchLitCI (lc "1d") r with
    | some r2 => some r2
    | none => matchLitCI (lc "2") r

/-- Python `re.findall` for a groupless pattern: left-to-right, non-overlapping,
recording the matched substrings.  (Our matchers always consume at least one
character, so the guard branch is never taken.) -/
def findAllByF (m : List Char → Option (List Char)) : Nat → List Char → List (List Char)
  | 0, _ => []
  | _, [] => []
  | fuel + 1, c :: rest =>
    match m (c :: rest) with
    | some r =>
      if r.length < (c :: rest).length then
        (c :: rest).take ((c :: rest).length - r.length) :: findAllByF m fuel r
      else findAllByF m fuel rest
    | none => findAllByF m fuel rest

def findAllBy (m : List Char → Option (List Char)) (s : List Char) : List (List Char) :=
  findAllByF m s.length s

/-- `start_p.findall(text)` of `_parse_item_1c` / `parse_method_1`. -/
def findAllStart (s : List Char) : List (List Char) := findAllBy matchStart s

/-- `end_p.findall(text)` of `_parse_item_1c`. -/
def findAllEnd02 (s : List Char) : List (List Char) := findAllBy matchEnd02 s

/-- Matcher for `sec_01`'s end pattern `item\s+1d|(item\s+2\.?)\s+Properties`.
Because the pattern has one group, `re.findall` yields the group-1 text: the
empty string for an `item 1d` match, the `item 2.` portion otherwise.
Returns (group text, remaining input). -/
def matchEnd01 (s : List Char) : Option (List Char × List Char) :=
  match ((matchLitCI (lc "item") s).bind wsPlus).bind (matchLitCI (lc "1d")) with
  | some r => some ([], r)
  | none =>
    match ((matchLitCI (lc "item") s).bind wsPlus).bind (matchLitCI (lc "2")) with
    | none => none
    | some r =>
      let g1end := match r with | '.' :: r2 => r2 | _ => r
      match (wsPlus g1end).bind (matchLitCI (lc "Properties")) with
      | none => none
      | some rem => some (s.take (s.length - g1end.length), rem)

/-- `re.findall` for a one-group pattern, recording the group text. -/
def findAllGF (m : List Char → Option (List Char × List Char)) :
    Nat → List Char → List (List Char)
  | 0, _ => []
  | _, [] => []
  | fuel + 1, c :: rest =>
    match m (c :: rest) with
    | some (g, r) =>
      if r.length < (c :: rest).length then g :: findAllGF m fuel r
      else findAllGF m fuel rest
    | none => findAllGF m fuel rest

def findAllG (m : List Char → Option (List Char × List Char)) (s : List Char) :
    List (List Char) :=
  findAllGF m s.length s

/-- `end_p.findall(text)` of `parse_method_1` (group-1 semantics). -/
def findAllEnd01 (s : List Char) : List (List Char) := findAllG matchEnd01 s

/-- Python `re.sub(r"\s+", r"\\s+", m)`: whitespace runs become the literal
three characters backslash-s-plus. -/
def escWsPatF : Nat → List Char → List Char
  | 0, _ => []
  | _, [] => []
  | fuel + 1, c :: rest =>
    if pyWs c then '\\' :: 's' :: '+' :: escWsPatF fuel (rest.dropWhile pyWs)
    else c :: escWsPatF fuel rest

def escWsPat (s : List Char) : List Char := escWsPatF s.length s

/-- Interpreter for the escaped patterns built in `parse_method_1`:
a `\s+` token consumes a whitespace run, `.` any character (re.S),
everything else matches case-insensitively (re.I). -/
def matchPat : List Char → List Char → Option (List Char)
  | [], s => some s
  | '\\' :: 's' :: '+' :: ps, s => (wsPlus s).bind (matchPat ps)
  | '.' :: ps, s => match s with | [] => none | _ :: rest => matchPat ps rest
  | p :: ps, s =>
    match s with
    | [] => none
    | c :: rest => if ciEq p c then matchPat ps rest else none

/-- All positions of `s` at which `pat` matches. -/
def positionsWhere (pat s : List Char) : List Nat :=
  (List.range (s.length + 1)).filter (fun i => (matchPat pat (s.drop i)).isSome)

/-- Python `re.search(rf"({sp}.*){ep}", s, re.I | re.S)` followed by
`.group(1)`: leftmost start, greedy gap (the last end occurrence). -/
def searchGroup1 (sp ep s : List Char) : Option (List Char) :=
  match (List.range (s.length + 1)).find? (fun i =>
      match matchPat sp (s.drop i) with
      | none => false
      | some r => (positionsWhere ep s).any (fun j => s.length - r.length ≤ j)) with
  | none => none
  | some i =>
    match matchPat sp (s.drop i) with
    | none => none
    | some r =>
      match ((positionsWhere ep s).filter (fun j => s.length - r.length ≤ j)).getLast? with
      | none => none
      | some j => some ((s.take j).drop i)

/-- Character class `[\s\\n\xa0​]` of `parse_method_1`'s final cleanup sub. -/
def clsA (c : Char) : Bool := pyWs c ∨ c = '\\' ∨ c = 'n' ∨ c = Char.ofNat 0x200b

/-- Character class `[\\n\s\xa0​\*]` of the same sub. -/
def clsB (c : Char) : Bool := clsA c ∨ c = '*'

/-- One match of `re.sub(r"Item[\s\\n\xa0​]+1C.?[\\n\s\xa0​\*]+", ...)`
(re.I, no re.S: `.` excludes newline), returning the remaining input. -/
def matchItem1C (s : List Char) : Option (List Char) :=
  (matchLitCI (lc "Item") s).bind fun r =>
    if (r.takeWhile clsA).isEmpty then none
    else
      (matchLitCI (lc "1C") (r.dropWhile clsA)).bind fun r2 =>
        let withDot : Option (List Char) :=
          match r2 with
          | c :: r3 =>
            if c ≠ '\n' then
              (if (r3.takeWhile clsB).isEmpty then none else some (r3.dropWhile clsB))
            else none
          | [] => none
        match withDot with
        | some rem => some rem
        | none =>
          if (r2.takeWhile clsB).isEmpty then none else some (r2.dropWhile clsB)

/-- Global application of the `Item 1C.` normalisation sub. -/
def subItem1CGoF : Nat → List Char → List Char
  | 0, _ => []
  | _, [] => []
  | fuel + 1, c :: rest =>
    match matchItem1C (c :: rest) with
    | some r =>
      if r.length < (c :: rest).length then lc "Item 1C. " ++ subItem1CGoF fuel r
      else c :: subItem1CGoF fuel rest
    | none => c :: subItem1CGoF fuel rest

def subItem1CGo (s : List Char) : List Char := subItem1CGoF s.length s

/-! ### Document trees

`HNode` models the lxml element tree: elements with tag, attributes and an
ordered child list, text nodes, comment nodes, and a `dropped` tombstone.
`Selector.drop()` / `drop_tree()` is modelled by replacing the node with
`dropped`, which keeps all sibling indices (and hence node identities, which
we represent as root paths) stable, exactly as lxml keeps object identities
stable across removals. -/

inductive HNode where
  | elem (tag : List Char) (attrs : List (List Char × List Char)) (children : List HNode)
  | text (s : List Char)
  | comment (s : List Char)
  | dropped

/-- A node identity: the child-index path from the document root. -/
abbrev NPath := List Nat

mutual
/-- lxml `text_content()` / XPath string-value: all descendant text,
comments excluded. -/
def textContent : HNode → List Char
  | .elem _ _ children => textContentL children
  | .text s => s
  | .comment _ => []
  | .dropped => []

def textContentL : List HNode → List Char
  | [] => []
  | n :: rest => textContent n ++ textContentL rest
end

/-- Node lookup by path. -/
def nodeAt : HNode → NPath → Option HNode
  | n, [] => some n
  | .elem _ _ children, i :: p =>
    match children[i]? with
    | some childN => nodeAt childN p
    | none => none
  | _, _ :: _ => none

/-- String-value of the node at a path (empty if the path dangles). -/
def textContentAt (t : HNode) (p : NPath) : List Char :=
  match nodeAt t p with
  | some n => textContent n
  | none => []

mutual
/-- Paths of all element nodes of a subtree in document order, the subtree
root (at base path `p`) included; dropped subtrees are skipped. -/
def elemPathsAux : HNode → NPath → List NPath
  | .elem _ _ children, p => p :: elemPathsChildren children p 0
  | _, _ => []

def elemPathsChildren : List HNode → NPath → Nat → List NPath
  | [], _, _ => []
  | n :: rest, p, i => elemPathsAux n (p ++ [i]) ++ elemPathsChildren rest p (i + 1)
end

/-- XPath `//*`: every element of the document, in document order. -/
def elemPaths (t : HNode) : List NPath := elemPathsAux t []

/-- Attribute lookup on the node at a path. -/
def attrAt (t : HNode) (p : NPath) (a : List Char) : Option (List Char) :=
  match nodeAt t p with
  | some (.elem _ attrs _) => (attrs.find? (fun kv => kv.1 = a)).map (fun kv => kv.2)
  | _ => none

mutual
/-- First descendant text node (`.//text()` followed by `.get()`). -/
def firstTextL : List HNode → Option (List Char)
  | [] => none
  | n :: rest =>
    match firstTextN n with
    | some s => some s
    | none => firstTextL rest

def firstTextN : HNode → Option (List Char)
  | .elem _ _ children => firstTextL children
  | .text s => some s
  | _ => none
end

/-- `.//text()` `.get()` for the element at a path. -/
def firstTextDescAt (t : HNode) (p : NPath) : Option (List Char) :=
  match nodeAt t p with
  | some (.elem _ _ children) => firstTextL children
  | _ => none

mutual
/-- Whether a subtree contains a text node (`[.//text()]`). -/
def hasTextL : List HNode → Bool
  | [] => false
  | n :: rest => hasTextN n || hasTextL rest

def hasTextN : HNode → Bool
  | .elem _ _ children => hasTextL children
  | .text _ => true
  | _ => false
end

/-- `[.//text()]` for the element at a path. -/
def hasTextNodeAt (t : HNode) (p : NPath) : Bool :=
  match nodeAt t p with
  | some (.elem _ _ children) => hasTextL children
  | _ => false

/-- XPath `./preceding-sibling::*`, in document order (as lxml returns it):
the live element siblings with a smaller final index. -/
def precedingSiblingElems (t : HNode) (p : NPath) : List NPath :=
  match p.getLast?, nodeAt t p.dropLast with
  | some i, some (.elem _ _ children) =>
    ((List.range i).filter (fun j =>
      match children[j]? with
      | some (.elem _ _ _) => true
      | _ => false)).map (fun j => p.dropLast ++ [j])
  | _, _ => []

/-- XPath `.//*`: the strict descendant elements of the node at a path. -/
def strictDescElemPaths (t : HNode) (p : NPath) : List NPath :=
  match nodeAt t p with
  | some n => (elemPathsAux n p).drop 1
  | none => []

mutual
/-- HTML serialisation of a node, as `Selector.get()` produces it
(tail text excluded; dropped subtrees vanish). -/
def serializeN : HNode → List Char
  | .elem tag attrs children =>
    '<' :: (tag ++ serializeAttrs attrs ++ ['>'] ++ serializeL children ++
      ('<' :: '/' :: (tag ++ ['>'])))
  | .text s => s
  | .comment s => lc "<!--" ++ s ++ lc "-->"
  | .dropped => []

def serializeL : List HNode → List Char
  | [] => []
  | n :: rest => serializeN n ++ serializeL rest

def serializeAttrs : List (List Char × List Char) → List Char
  | [] => []
  | kv :: rest => ' ' :: (kv.1 ++ ('=' :: '"' :: (kv.2 ++ ['"'])) ++ serializeAttrs rest)
end

/-- `Selector.get()` for the node at a path. -/
def serializeAt (t : HNode) (p : NPath) : List Char :=
  match nodeAt t p with
  | some n => serializeN n
  | none => []

/-- Model of `drop()`: replace the node at a path by the tombstone. -/
def markDroppedAt : HNode → NPath → HNode
  | _, [] => .dropped
  | .elem tag attrs children, i :: p =>
    match children[i]? with
    | some childN => .elem tag attrs (children.set i (markDroppedAt childN p))
    | none => .elem tag attrs children
  | n, _ :: _ => n

mutual
/-- Drop every node satisfying a predicate (evaluated on the intact subtree). -/
def markDrop (pr : HNode → Bool) : HNode → HNode
  | .elem tag attrs children =>
    if pr (.elem tag attrs children) then .dropped
    else .elem tag attrs (markDropL pr children)
  | n => if pr n then .dropped else n

def markDropL (pr : HNode → Bool) : List HNode → List HNode
  | [] => []
  | n :: rest => markDrop pr n :: markDropL pr rest
end

/-- First direct text child (XPath `text()` as a nodeset, first node). -/
def firstDirectText : List HNode → Option (List Char)
  | [] => none
  | .text s :: _ => some s
  | _ :: rest => firstDirectText rest

/-- The `//a[starts-with(normalize-space(text()), "Table of Contents")]`
predicate of the cleanup phase. -/
def isTocAnchor : HNode → Bool
  | .elem tag _ children =>
    tag = lc "a" && startsW (lc "Table of Contents")
      (normSpace ((firstDirectText children).getD []))
  | _ => false

mutual
/-- `.//comment()[contains(., "Sequence")]`. -/
def hasSeqCommentN : HNode → Bool
  | .elem _ _ children => hasSeqCommentL children
  | .comment s => hasSub (lc "Sequence") s
  | _ => false

def hasSeqCommentL : List HNode → Bool
  | [] => false
  | n :: rest => hasSeqCommentN n || hasSeqCommentL rest
end

/-- `//table[.//comment()[contains(.,"Sequence")]]`. -/
def isSeqTable : HNode → Bool
  | .elem tag _ children => tag = lc "table" && hasSeqCommentL children
  | _ => false

/-- Tables whose `text_content()` `.isspace()` (the third cleanup pass). -/
def isWsTable : HNode → Bool
  | .elem tag _ children => tag = lc "table" && isSpaceStr (textContentL children)
  | _ => false

/-- Paths of the `//hr` elements. -/
def hrPaths (t : HNode) : List NPath :=
  (elemPaths t).filter (fun p =>
    match nodeAt t p with
    | some (.elem tag _ _) => tag = lc "hr"
    | _ => false)

/-- One iteration of the `for hr in sel.xpath("//hr")` loop: if the nearest
preceding element sibling has a text descendant and its first text is all
digits, drop that sibling; then drop the `hr` itself. -/
def dropHrStep (t : HNode) (p : NPath) : HNode :=
  match nodeAt t p with
  | some (.elem _ _ _) =>
    let t2 :=
      match (precedingSiblingElems t p).getLast? with
      | some q =>
        if hasTextNodeAt t q && isDigitStr ((firstTextDescAt t q).getD []) then
          markDroppedAt t q
        else t
      | none => t
    markDroppedAt t2 p
  | _ => t

/-- The noise-removal phase shared verbatim by `_parse_item_1c`
(sec_02 lines 157-168) and `parse_method_1` (sec_01 lines 140-149). -/
def cleanTree (t : HNode) : HNode :=
  let t1 := markDrop isTocAnchor t
  let t2 := markDrop isSeqTable t1
  let t3 := markDrop isWsTable t2
  (hrPaths t3).foldl dropHrStep t3

/-! ### Descendant filters and the two boundary locators -/

/-- Boolean initial-segment test on paths. -/
def initSeg : List Nat → List Nat → Bool
  | [], _ => true
  | _ :: _, [] => false
  | a :: as, b :: bs => a = b && initSeg as bs

/-- `s.root in o.root.iterdescendants()`: the node at path `s` lies strictly
below the node at path `o`. -/
def pathBelow (o s : NPath) : Bool := decide (o ≠ s) && initSeg o s

/-- The comprehension inside `not_decendants` (sec_02 lines 170-176,
sec_01 lines 108-114): keep the candidates that are not descendants of any
candidate. -/
def notDecFilter (sl : List NPath) : List NPath :=
  sl.filter (fun s => !sl.any (fun o => pathBelow o s))

/-- `not_decendants`: filter, then `result.pop()` — the last survivor.
`none` models the `IndexError` of popping an empty list. -/
def not_decendants (sl : List NPath) : Option NPath :=
  (notDecFilter sl).getLast?

/-- `remove_decendants` of sec_00 (lines 107-111), with Python's
mutate-while-iterating `for n in nodes: ... nodes.remove(n)` semantics:
the iterator index advances over the shrinking list. -/
def removeDecGoF : Nat → Nat → List NPath → List NPath
  | 0, _, nodes => nodes
  | fuel + 1, i, nodes =>
    if h : i < nodes.length then
      let n := nodes.get ⟨i, h⟩
      if nodes.any (fun o => pathBelow o n) then removeDecGoF fuel (i + 1) (nodes.erase n)
      else removeDecGoF fuel (i + 1) nodes
    else nodes

def remove_decendants (nodes : List NPath) : List NPath :=
  removeDecGoF nodes.length 0 nodes

/-- Shared result shape of the two locators: the section is absent, an
uncaught exception occurred, or boundaries were found.  A `found` outcome
records the popped marker strings, the chosen end node, the cleaned tree
and the cut-off produced by the backwards sibling walk (`none` when no
walked node had a qualifying descendant). -/
inductive Loc where
  | absent
  | exc
  | found (sm em : List Char) (endPath : NPath) (t2 : HNode) (cut : Option Nat)

/-- Python `targets[cut_off:]` where `cut_off` is `None` or `-1 - i` for the
`i`-th element of the reversed list: the last `i + 1` elements. -/
def sliceFromCut (targets : List NPath) : Option Nat → List NPath
  | none => targets
  | some i => targets.drop (targets.length - (i + 1))

/-- The `enumerate`/`break` loop of both locators, on the reversed target
list: index of the first target having a strict descendant element whose
normalized text starts with the start marker. -/
def cutIdx (t2 : HNode) (st : List Char) (rev : List NPath) : Option Nat :=
  rev.findIdx? (fun p =>
    (strictDescElemPaths t2 p).any (fun q => startsW st (normSpace (textContentAt t2 q))))

/-- `//*[starts-with(normalize-space(.), end)]` of `_parse_item_1c`. -/
def sec02EndTargets (t : HNode) (en : List Char) : List NPath :=
  (elemPaths t).filter (fun p => startsW en (normSpace (textContentAt t p)))

/-- Control skeleton of `_parse_item_1c` (sec_02 lines 145-190) up to the
rendering step. -/
def sec02Core (t : HNode) : Loc :=
  match (findAllStart (textContent t)).getLast?, (findAllEnd02 (textContent t)).getLast? with
  | some sm, some em =>
    if sec02EndTargets t (pySubWs em) = [] then .absent
    else
      match not_decendants (sec02EndTargets t (pySubWs em)) with
      | none => .exc
      | some endPath =>
        if precedingSiblingElems (cleanTree t) endPath = [] then .absent
        else
          .found sm em endPath (cleanTree t)
            (cutIdx (cleanTree t) (pySubWs sm)
              (precedingSiblingElems (cleanTree t) endPath).reverse)
  | _, _ => .absent

/-- The rendering tail of `_parse_item_1c`: join the sliced nodes with
newlines, apply the external `markdownify(unescape(·))` renderer `md`, and
collapse triple newlines. -/
def sec02Render (md : List Char → List Char) (t2 : HNode) (dataPaths : List NPath) :
    List Char :=
  collapse3NL (md (List.intercalate ['\n'] (dataPaths.map (serializeAt t2))))

/-- `_parse_item_1c` of sec_02.  `none` models an uncaught exception;
otherwise the `(data, found)` pair is returned. -/
def parse_item_1c (md : List Char → List Char) (t : HNode) :
    Option (Option (List Char) × Bool) :=
  match sec02Core t with
  | .absent => some (none, false)
  | .exc => none
  | .found _ _ endPath t2 cut =>
    some (some (sec02Render md t2 (sliceFromCut (precedingSiblingElems t2 endPath) cut)),
      true)

/-- `//body//*[starts-with(normalize-space(.), end)]
| //body/*[.//*[starts-with(normalize-space(.), end)]]` of `parse_method_1`. -/
def sec01EndTargets (t : HNode) (en : List Char) : List NPath :=
  let bodies := (elemPaths t).filter (fun p =>
    match nodeAt t p with
    | some (.elem tag _ _) => tag = lc "body"
    | _ => false)
  (elemPaths t).filter (fun p =>
    (bodies.any (fun b => pathBelow b p) && startsW en (normSpace (textContentAt t p)))
    || (decide (p ≠ []) && bodies.any (fun b => b = p.dropLast) &&
        (strictDescElemPaths t p).any (fun q =>
          startsW en (normSpace (textContentAt t q)))))

/-- Control skeleton of `parse_method_1` (sec_01 lines 117-165) up to the
rendering step.  The target list is `self::* | ./preceding-sibling::*`,
i.e. the preceding siblings followed by the end node itself. -/
def sec01Core (t : HNode) : Loc :=
  match (findAllStart (textContent t)).getLast?, (findAllEnd01 (textContent t)).getLast? with
  | some sm, some em =>
    if sec01EndTargets t (pySubWs em) = [] then .absent
    else
      match not_decendants (sec01EndTargets t (pySubWs em)) with
      | none => .exc
      | some endPath =>
        if precedingSiblingElems (cleanTree t) endPath ++ [endPath] = [] then .absent
        else
          .found sm em endPath (cleanTree t)
            (cutIdx (cleanTree t) (pySubWs sm)
              (precedingSiblingElems (cleanTree t) endPath ++ [endPath]).reverse)
  | _, _ => .absent

/-- The literal returned by `parse_method_1` when its final regex search
fails. -/
def PLACEHOLDER : List Char := lc "[red] !! REGEX NOT FOUND !! [/red]"

/-- The rendering tail of `parse_method_1` (sec_01 lines 165-178): join,
render via `md`, collapse `\n[\s\xa0​]+\n`, strip, then extract
`({start}.*){end}` group 1 (placeholder on failure) and normalise the
`Item 1C.` heading. -/
def sec01Post (sm em : List Char) (md : List Char → List Char) (t2 : HNode)
    (dataPaths : List NPath) : List Char :=
  let data := List.intercalate ['\n'] (dataPaths.map (serializeAt t2))
  let d1 := pyStrip (subNlWsNl (md data))
  let d2 :=
    match searchGroup1 (escWsPat sm) (escWsPat em) d1 with
    | some g => g
    | none => PLACEHOLDER
  subItem1CGo d2

/-- `parse_method_1` of sec_01.  `none` models an uncaught exception. -/
def parse_method_1 (md : List Char → List Char) (t : HNode) :
    Option (Option (List Char) × Bool) :=
  match sec01Core t with
  | .absent => some (none, false)
  | .exc => none
  | .found sm em endPath t2 cut =>
    some (some (sec01Post sm em md t2
      (sliceFromCut (precedingSiblingElems t2 endPath ++ [endPath]) cut)), true)

/-- Observation: the end node chosen by `parse_method_1`, when one is found. -/
def sec01EndTarget (t : HNode) : Option NPath :=
  match sec01Core t with
  | .found _ _ p _ _ => some p
  | _ => none

/-- Observation: the node range `targets[cut_off:]` rendered by
`parse_method_1`, when one is found. -/
def sec01RangePaths (t : HNode) : Option (List NPath) :=
  match sec01Core t with
  | .found _ _ p t2 cut => some (sliceFromCut (precedingSiblingElems t2 p ++ [p]) cut)
  | _ => none

/-- Observation: the end node chosen by `_parse_item_1c`, when one is found. -/
def sec02EndTarget (t : HNode) : Option NPath :=
  match sec02Core t with
  | .found _ _ p _ _ => some p
  | _ => none

/-- Observation: the node range rendered by `_parse_item_1c`. -/
def sec02RangePaths (t : HNode) : Option (List NPath) :=
  match sec02Core t with
  | .found _ _ p t2 cut => some (sliceFromCut (precedingSiblingElems t2 p) cut)
  | _ => none

/-! ### Entity field extractor (`_parse_entity`, sec_02 lines 81-143)

Only the repeatable `comk` half (lines 113-127) is modelled: the four
company field tags, the `zip(*...)` positional grouping, and the `"N/A"`
fill.  A record is an association list from field key to value; its lookup
behaviour is all the source's dict offers. -/

/-- The `comk` tuple of `_parse_entity`. -/
def comkKeys : List (List Char) :=
  [lc "EntityFileNumber", lc "EntityRegistrantName",
   lc "EntityIncorporationStateCountryCode", lc "EntityTaxIdentificationNumber"]

/-- `sel.css(f'[name="dei:{dei}"]')`: elements with the exact name attribute. -/
def namedNodes (t : HNode) (key : List Char) : List NPath :=
  (elemPaths t).filter (fun p => attrAt t p (lc "name") = some (lc "dei:" ++ key))

/-- `_clean`: the name attribute with every `dei:` removed, `None`/empty
filtered out by the comprehension's walrus guard. -/
def cleanName (t : HNode) (p : NPath) : Option (List Char) :=
  match attrAt t p (lc "name") with
  | none => none
  | some nm =>
    let k := replaceAll (lc "dei:") [] nm
    if k = [] then none else some k

/-- `re.sub(r"[\n\xa0]", " ", d.xpath(".//text()").get())`; `none` when the
node has no text descendant (where the Python would raise). -/
def nodeText02 (t : HNode) (p : NPath) : Option (List Char) :=
  (firstTextDescAt t p).map pySubNlNbsp

/-- Python `zip(*lists)`: truncating transposition. -/
def zipNAux : List NPath → List (List NPath) → List (List NPath)
  | [], _ => []
  | a :: l, ls =>
    if ls.any (fun x => x.isEmpty) then []
    else (a :: ls.filterMap (fun x => x.head?)) :: zipNAux l (ls.map (fun x => x.tail))

def zipN : List (List NPath) → List (List NPath)
  | [] => []
  | l :: ls => zipNAux l ls

/-- `list(filter(None, [sel.css(...) for dei in comk]))`: the per-key node
lists, empty ones removed. -/
def subEntityLists (t : HNode) : List (List NPath) :=
  (comkKeys.map (fun k => namedNodes t k)).filter (fun l => l ≠ [])

/-- One record of the `companies_info` comprehension: keys via `_clean`,
values via the text sub; `none` if any text lookup raises. -/
def recordOf (t : HNode) (c : List NPath) : Option (List (List Char × List Char)) :=
  (c.filterMap (fun p => (cleanName t p).map (fun k => (k, p)))).mapM
    (fun kp => (nodeText02 t kp.2).map (fun v => (kp.1, v)))

/-- The `"N/A"` sentinel. -/
def NAval : List Char := lc "N/A"

/-- `c_i.update(dict.fromkeys(set(comk).difference(c_i.keys()), "N/A"))`:
add the sentinel for every missing key (association-list semantics; dict
key order is immaterial for lookups). -/
def naFill (r : List (List Char × List Char)) : List (List Char × List Char) :=
  r ++ (comkKeys.filter (fun k => !r.any (fun kv => kv.1 = k))).map (fun k => (k, NAval))

/-- The `companies_info` pipeline of `_parse_entity` (sec_02 lines 113-127). -/
def parse_entity_companies (t : HNode) :
    Option (List (List (List Char × List Char))) :=
  (zipN (subEntityLists t)).mapM (fun c => (recordOf t c).map naFill)

/-- Record lookup (dict access). -/
def alookup (k : List Char) (r : List (List Char × List Char)) : Option (List Char) :=
  (r.find? (fun kv => kv.1 = k)).map (fun kv => kv.2)

/-- Minimum length of a family of lists (0 for an empty family): the length
`zip(*lists)` truncates to. -/
def listMinLen : List (List NPath) → Nat
  | [] => 0
  | l :: ls => (ls.map List.length).foldl Nat.min l.length

/-- The record count `_parse_entity` actually produces. -/
def minPresentLen (t : HNode) : Nat := listMinLen (subEntityLists t)

/-! ### Fetch retry loops and batch controllers -/

/-- `JournalScraper._get_journals` (journals_scraper lines 137-148), with the
network modelled as a map from attempt number to outcome and the backoff
sleep elided (it has no observable value).  The `tries` counter starts at 4;
on the last failure the raised message carries the triggering URL. -/
def get_journals {α : Type} (fetch : Nat → Except (List Char) α) (uri : List Char) :
    Nat → Nat → Except (List Char) α
  | attempt, 0 =>
    match fetch attempt with
    | .ok a => .ok a
    | .error e => .error (e ++ lc ": " ++ uri)
  | attempt, tries + 1 =>
    match fetch attempt with
    | .ok a => .ok a
    | .error _ => get_journals fetch uri (attempt + 1) tries

/-- Number of fetch attempts the retry loop performs. -/
def get_journals_attempts {α : Type} (fetch : Nat → Except (List Char) α) :
    Nat → Nat → Nat
  | _, 0 => 1
  | attempt, tries + 1 =>
    match fetch attempt with
    | .ok _ => 1
    | .error _ => 1 + get_journals_attempts fetch (attempt + 1) tries

/-- `JournalScraper.run` (journals_scraper lines 150-159): iterate the
completion-ordered outcomes, appending the value or the caught exception.
The input list is already in completion order. -/
def runCollect {ε α : Type} (tasks : List (Except ε α)) : List (Except ε α) :=
  tasks.foldl (fun results r => results ++ [r]) []

/-- `get_10k` of sec_01 (lines 303-318): `result.append(await r)` with no
exception handling, so the first errored completion propagates out. -/
def get_10k_collect {ε α : Type} : List (Except ε α) → Except ε (List α)
  | [] => .ok []
  | .error e :: _ => .error e
  | .ok a :: rest => (get_10k_collect rest).map (fun l => a :: l)

/-- Events of the batch model: `asyncio.as_completed` wraps every coroutine
in a task up front, so all pipelines start before any completes (each
pipeline's first step is an awaited fetch).  `get_item_1c` performs no
semaphore acquisition — the `asyncio.Semaphore(9)` of sec_01's `main` is
entered once by `main` itself and never touched by the pipelines — so
nothing blocks a start. -/
inductive PipeEv where
  | start (i : Nat)
  | finish (i : Nat)

/-- Trace of one sec_01 batch: `K` task starts, then completions. -/
def asCompletedTrace (workItems : Nat) (fins : List Nat) : List PipeEv :=
  ((List.range workItems).map PipeEv.start) ++ fins.map PipeEv.finish

def inFlightStep (n : Nat) : PipeEv → Nat
  | .start _ => n + 1
  | .finish _ => n - 1

def maxInFlightGo (cur best : Nat) : List PipeEv → Nat
  | [] => best
  | e :: rest =>
    maxInFlightGo (inFlightStep cur e) (max best (inFlightStep cur e)) rest

/-- Largest number of simultaneously in-flight pipelines over a trace. -/
def maxInFlight (tr : List PipeEv) : Nat := maxInFlightGo 0 0 tr

/-- The bound of `asyncio.Semaphore(9)` in sec_01's `main` (line 335). -/
def sec01SemaphoreLimit : Nat := 9

/-- The `[:10]` slice of `get_10k` (line 313): up to ten 10-K work items. -/
def sec01WorkItemCap : Nat := 10

/-! ### Concrete example documents -/

/-- Two sub-entities; `EntityTaxIdentificationNumber` tagged on only one. -/
def c1tree : HNode :=
  .elem (lc "html") [] [
    .elem (lc "span") [(lc "name", lc "dei:EntityFileNumber")] [.text (lc "001-1111")],
    .elem (lc "span") [(lc "name", lc "dei:EntityRegistrantName")] [.text (lc "ACME CORP")],
    .elem (lc "span") [(lc "name", lc "dei:EntityIncorporationStateCountryCode")] [.text (lc "DE")],
    .elem (lc "span") [(lc "name", lc "dei:EntityTaxIdentificationNumber")] [.text (lc "11-111")],
    .elem (lc "span") [(lc "name", lc "dei:EntityFileNumber")] [.text (lc "001-2222")],
    .elem (lc "span") [(lc "name", lc "dei:EntityRegistrantName")] [.text (lc "ACME SUB LLC")],
    .elem (lc "span") [(lc "name", lc "dei:EntityIncorporationStateCountryCode")] [.text (lc "NV")]]

/-- Both markers occur in the text; the end node has one preceding sibling
and no walked node has a descendant element starting with the start marker. -/
def c2tree : HNode :=
  .elem (lc "html") [] [
    .elem (lc "p") [] [.text (lc "hello Item 1C something")],
    .elem (lc "p") [] [.text (lc "Item 1D. Other")]]

/-- The sec_01 locator's `self::*` union puts the end node itself into the
collected range on this document. -/
def c7tree : HNode :=
  .elem (lc "html") [] [
    .elem (lc "body") [] [
      .elem (lc "p") [] [.text (lc "Item 1C. Cybersecurity blah")],
      .elem (lc "p") [] [.text (lc "Item 1D. Other")]]]

/-- The start marker text lies outside the end node's sibling range, so
sec_01's final regex cannot find `start.*end` in the rendered data. -/
def c9tree : HNode :=
  .elem (lc "html") [] [
    .elem (lc "body") [] [
      .elem (lc "div") [] [
        .elem (lc "p") [] [.text (lc "Item 2. Properties zzz")]],
      .elem (lc "p") [] [.text (lc "Item 1C. Cybersecurity")]]]

/-- A document with neither marker. -/
def c6tree : HNode :=
  .elem (lc "html") [] [.text (lc "nothing to see here")]

/-- The identity renderer used to instantiate the external markdown
collaborator at concrete inputs. -/
def idMd : List Char → List Char := fun s => s

/-- The keys whose tag occurs at least once in the document. -/
def presentKeys (t : HNode) : List (List Char) :=
  comkKeys.filter (fun k => namedNodes t k ≠ [])

/-- The single record `_parse_entity` extracts from `c1tree`. -/
def c1recs : List (List (List Char × List Char)) :=
  [[(lc "EntityFileNumber", lc "001-1111"),
    (lc "EntityRegistrantName", lc "ACME CORP"),
    (lc "EntityIncorporationStateCountryCode", lc "DE"),
    (lc "EntityTaxIdentificationNumber", lc "11-111")]]

/-! ### Helper lemmas -/

theorem foldl_append_id {ε α : Type} (tasks acc : List (Except ε α)) :
    tasks.foldl (fun results r => results ++ [r]) acc = acc ++ tasks := by
  induction tasks generalizing acc with
  | nil => simp
  | cons x rest ih => simp [List.foldl_cons, ih]

theorem runCollect_eq {ε α : Type} (tasks : List (Except ε α)) :
    runCollect tasks = tasks := by
  unfold runCollect
  rw [foldl_append_id]
  simp

theorem get_journals_attempts_le {α : Type} (fetch : Nat → Except (List Char) α) :
    ∀ (tries attempt : Nat), get_journals_attempts fetch attempt tries ≤ tries + 1 := by
  intro tries
  induction tries with
  | zero => intro attempt; simp [get_journals_attempts]
  | succ k ih =>
    intro attempt
    simp only [get_journals_attempts]
    cases fetch attempt with
    | ok a => simp
    | error e =>
      simp only []
      have := ih (attempt + 1)
      omega

theorem maxInFlightGo_starts (l : List Nat) :
    ∀ (cur best : Nat) (rest : List PipeEv), cur ≤ best →
      maxInFlightGo cur best (l.map PipeEv.start ++ rest)
        = maxInFlightGo (cur + l.length) (max best (cur + l.length)) rest := by
  induction l with
  | nil =>
    intro cur best rest h
    simp [Nat.max_eq_left h]
  | cons a l ih =>
    intro cur best rest h
    show maxInFlightGo (cur + 1) (max best (cur + 1)) (l.map PipeEv.start ++ rest)
      = maxInFlightGo (cur + (a :: l).length) (max best (cur + (a :: l).length)) rest
    rw [ih (cur + 1) (max best (cur + 1)) rest (Nat.le_max_right _ _)]
    have h1 : cur + 1 + l.length = cur + (a :: l).length := by
      simp only [List.length_cons]; omega
    rw [h1]
    congr 1
    rw [Nat.max_assoc]
    congr 1
    exact Nat.max_eq_right (by simp only [List.length_cons]; omega)

theorem maxInFlightGo_fins (l : List Nat) :
    ∀ (cur best : Nat), cur ≤ best →
      maxInFlightGo cur best (l.map PipeEv.finish) = best := by
  induction l with
  | nil => intro cur best _; rfl
  | cons a l ih =>
    intro cur best h
    simp only [List.map_cons, maxInFlightGo, inFlightStep]
    rw [Nat.max_eq_left (by omega : cur - 1 ≤ best)]
    exact ih (cur - 1) best (by omega)

/-! ### Claim C8 — descendant-removal idempotence -/

/-- Claim C8 counterexample: `remove_decendants` of sec_00 is not idempotent.
With candidates `[0,0]`, `[0,1]`, `[0]` (the first two inside the third),
the mutate-while-iterating loop removes `[0,0]`, skips `[0,1]`, and returns
`[[0,1],[0]]`; a second application removes `[0,1]` as well. -/
theorem c8_counterexample :
    remove_decendants (remove_decendants [[0, 0], [0, 1], [0]])
      ≠ remove_decendants [[0, 0], [0, 1], [0]] := by decide

/-- Claim C8 (amended): the comprehension-style descendant filter used by
`not_decendants` in sec_02/sec_01 is idempotent; it is sec_00's in-place
`remove_decendants` that is not (see the counterexample). -/
theorem c8_amended (sl : List NPath) :
    notDecFilter (notDecFilter sl) = notDecFilter sl := by
  unfold notDecFilter
  apply List.filter_eq_self.mpr
  intro a ha
  rw [List.mem_filter] at ha
  obtain ⟨hmem, hnot⟩ := ha
  simp only [Bool.not_eq_true', List.any_eq_false] at hnot ⊢
  intro o ho
  rw [List.mem_filter] at ho
  exact hnot o ho.1

/-- Witness for C8's amended theorem at a concrete candidate list. -/
theorem c8_amended_witness :
    notDecFilter (notDecFilter [[0, 0], [0, 1], [0]]) = notDecFilter [[0, 0], [0, 1], [0]] :=
  c8_amended [[0, 0], [0, 1], [0]]

/-! ### Claim C5 — retry bound and failure URL -/

/-- Claim C5 counterexample: with every attempt failing, the journals retry
loop performs 5 attempts — 4 retries, not the claimed "at most 3". -/
theorem c5_counterexample :
    get_journals_attempts (fun _ => (Except.error (lc "boom") : Except (List Char) Unit)) 0 4
      = 5 := by decide

/-- Claim C5 (amended): the fetch hop is re-attempted up to 4 times (5
attempts in total); only after exhausting the retries does the work item
fail, and the raised failure message carries the triggering URL appended to
the last error. -/
theorem c5_amended {α : Type} (fetch : Nat → Except (List Char) α) (uri : List Char)
    (m4 : List Char)
    (hfail : ∀ k, k < 5 → ∃ m, fetch k = Except.error m)
    (h4 : fetch 4 = Except.error m4) :
    get_journals fetch uri 0 4 = Except.error (m4 ++ lc ": " ++ uri) ∧
    get_journals_attempts fetch 0 4 = 5 ∧
    (∀ (f2 : Nat → Except (List Char) α), get_journals_attempts f2 0 4 ≤ 5) := by
  obtain ⟨m0, h0⟩ := hfail 0 (by omega)
  obtain ⟨m1, h1⟩ := hfail 1 (by omega)
  obtain ⟨m2, h2⟩ := hfail 2 (by omega)
  obtain ⟨m3, h3⟩ := hfail 3 (by omega)
  refine ⟨?_, ?_, ?_⟩
  · simp only [get_journals, h0, h1, h2, h3, h4]
  · simp only [get_journals_attempts, h0, h1, h2, h3, h4]
  · intro f2
    exact get_journals_attempts_le f2 4 0

/-- Witness for C5's amended theorem: a hop failing on every attempt. -/
theorem c5_amended_witness :
    get_journals (fun _ => (Except.error (lc "boom") : Except (List Char) Unit)) (lc "u") 0 4
      = Except.error (lc "boom" ++ lc ": " ++ lc "u") ∧
    get_journals_attempts (fun _ => (Except.error (lc "boom") : Except (List Char) Unit)) 0 4
      = 5 := by
  have h := c5_amended (fun _ => (Except.error (lc "boom") : Except (List Char) Unit))
    (lc "u") (lc "boom") (fun k _ => ⟨lc "boom", rfl⟩) rfl
  exact ⟨h.1, h.2.1⟩

/-! ### Claim C4 — batch collection -/

/-- Claim C4 counterexample: sec_01's `get_10k` awaits completions without
catching, so one failing work item aborts the whole batch instead of
yielding a three-entry result list. -/
theorem c4_counterexample :
    get_10k_collect [Except.ok 1, Except.error (lc "boom"), Except.ok 2]
      = Except.error (lc "boom") := rfl

/-- Claim C4 (amended): `JournalScraper.run` collects exactly one entry
(the value or the caught exception) per work item, in completion order, and
never aborts; sec_01's `get_10k` instead propagates the first errored
completion, aborting its batch. -/
theorem c4_amended {ε α : Type} (tasks : List (Except ε α)) :
    (runCollect tasks).length = tasks.length ∧
    (∀ i : Nat, (runCollect tasks)[i]? = tasks[i]?) ∧
    (∀ pre e post, tasks = pre ++ Except.error e :: post →
      (∀ x ∈ pre, ∃ a, x = Except.ok a) → get_10k_collect tasks = Except.error e) := by
  refine ⟨by rw [runCollect_eq], fun i => by rw [runCollect_eq], ?_⟩
  intro pre e post htasks hok
  subst htasks
  induction pre with
  | nil => rfl
  | cons x rest ih =>
    obtain ⟨a, ha⟩ := hok x (by simp)
    subst ha
    have hrec := ih (fun y hy => hok y (by simp [hy]))
    show get_10k_collect (Except.ok a :: (rest ++ Except.error e :: post)) = Except.error e
    rw [show get_10k_collect (Except.ok a :: (rest ++ Except.error e :: post))
        = (get_10k_collect (rest ++ Except.error e :: post)).map (fun l => a :: l) from rfl]
    rw [hrec]
    rfl

/-- Witness for C4's amended theorem at a concrete batch of three outcomes. -/
theorem c4_amended_witness :
    (runCollect [Except.ok 1, Except.error (lc "boom"), Except.ok 2]).length = 3 ∧
    get_10k_collect [Except.ok 1, Except.error (lc "boom"), Except.ok 2]
      = Except.error (lc "boom") := by
  have h := c4_amended [Except.ok 1, Except.error (lc "boom"), Except.ok 2]
  refine ⟨h.1, h.2.2 [Except.ok 1] (lc "boom") [Except.ok 2] rfl ?_⟩
  intro x hx
  rw [List.mem_singleton] at hx
  exact ⟨1, hx⟩

/-! ### Claim C3 — concurrency bound -/

/-- Claim C3: with ten 10-K work items (the `[:10]` cap of `get_10k`),
`asyncio.as_completed` puts all ten pipelines in flight — none of them ever
acquires the `asyncio.Semaphore(9)` created in `main` — so the in-flight
count reaches 10 and exceeds the limit 9, whatever the completion order. -/
theorem c3_theorem (fins : List Nat) :
    maxInFlight (asCompletedTrace sec01WorkItemCap fins) = sec01WorkItemCap ∧
    sec01SemaphoreLimit < maxInFlight (asCompletedTrace sec01WorkItemCap fins) := by
  have h : maxInFlight (asCompletedTrace sec01WorkItemCap fins) = sec01WorkItemCap := by
    unfold maxInFlight asCompletedTrace sec01WorkItemCap
    rw [maxInFlightGo_starts (List.range 10) 0 0 _ (Nat.le_refl 0)]
    simp only [List.length_range, Nat.zero_add, Nat.max_eq_right (Nat.zero_le 10)]
    exact maxInFlightGo_fins fins 10 10 (Nat.le_refl 10)
  exact ⟨h, by rw [h]; decide⟩

/-- Witness for C3's theorem at a concrete completion order. -/
theorem c3_witness :
    maxInFlight (asCompletedTrace sec01WorkItemCap [3, 1]) = sec01WorkItemCap ∧
    sec01SemaphoreLimit < maxInFlight (asCompletedTrace sec01WorkItemCap [3, 1]) :=
  c3_theorem [3, 1]

/-! ### Claim C6 — zero marker matches -/

/-- Claim C6: for every tree whose full text yields zero `findall` matches of
the start pattern or of the end pattern, both locators return
`(None, False)` and raise nothing (the result is a value, not the `none`
that models an exception). -/
theorem c6_theorem (t : HNode) (md : List Char → List Char) :
    ((findAllStart (textContent t) = [] ∨ findAllEnd02 (textContent t) = []) →
      parse_item_1c md t = some (none, false)) ∧
    ((findAllStart (textContent t) = [] ∨ findAllEnd01 (textContent t) = []) →
      parse_method_1 md t = some (none, false)) := by
  constructor
  · intro h
    have hcore : sec02Core t = Loc.absent := by
      unfold sec02Core
      rcases h with h | h
      · rw [h]; rfl
      · rw [h]
        cases hfs : (findAllStart (textContent t)).getLast? <;> rfl
    unfold parse_item_1c
    rw [hcore]
  · intro h
    have hcore : sec01Core t = Loc.absent := by
      unfold sec01Core
      rcases h with h | h
      · rw [h]; rfl
      · rw [h]
        cases hfs : (findAllStart (textContent t)).getLast? <;> rfl
    unfold parse_method_1
    rw [hcore]

/-- Witness for C6 at a document containing neither marker. -/
theorem c6_witness :
    parse_item_1c idMd c6tree = some (none, false) ∧
    parse_method_1 idMd c6tree = some (none, false) := by
  have h := c6_theorem c6tree idMd
  exact ⟨h.1 (Or.inl rfl), h.2 (Or.inl rfl)⟩

/-! ### Claim C9 — the sec_01 regex placeholder -/

/-- Claim C9: on `c9tree` both markers match the document text and an end
boundary is found, but the rendered sibling range does not contain the start
marker, so the `({start}.*){end}` search fails and `parse_method_1` returns
the literal placeholder with `found = True`. -/
theorem c9_theorem :
    parse_method_1 idMd c9tree = some (some PLACEHOLDER, true) := by rfl

/-! ### Claim C2 — no qualifying start node found -/

/-- Claim C2 counterexample: on `c2tree` an end-boundary node (`[1]`) is
found and no walked sibling qualifies (the cut-off is `None`), yet
`_parse_item_1c` returns the whole preceding-sibling range with
`found = True` instead of reporting the section absent. -/
theorem c2_counterexample :
    sec02Core c2tree = Loc.found (lc "Item 1C") (lc "Item 1D") [1] (cleanTree c2tree) none ∧
    parse_item_1c idMd c2tree
      = some (some (lc "<p>hello Item 1C something</p>"), true) := ⟨rfl, rfl⟩

/-- Claim C2 (amended): when the end boundary is found but the backwards walk
finds no node with a qualifying descendant (`cut_off` stays `None`), the
locator returns the ENTIRE preceding-sibling range, rendered, with
`found = True` — never the absent result the claim demands. -/
theorem c2_amended (t : HNode) (md : List Char → List Char) (sm em : List Char)
    (p : NPath) (t2 : HNode)
    (h : sec02Core t = Loc.found sm em p t2 none) :
    parse_item_1c md t
      = some (some (sec02Render md t2 (precedingSiblingElems t2 p)), true) := by
  unfold parse_item_1c
  rw [h]
  rfl

/-- Witness for C2's amended theorem at `c2tree`. -/
theorem c2_amended_witness :
    parse_item_1c idMd c2tree
      = some (some (sec02Render idMd (cleanTree c2tree)
          (precedingSiblingElems (cleanTree c2tree) [1])), true) :=
  c2_amended c2tree idMd (lc "Item 1C") (lc "Item 1D") [1] (cleanTree c2tree) rfl

/-! ### Claim C7 — end-exclusivity of the section range -/

theorem not_mem_precSib (t2 : HNode) (p : NPath) : p ∉ precedingSiblingElems t2 p := by
  intro hmem
  unfold precedingSiblingElems at hmem
  rcases hl : p.getLast? with _ | i
  · rw [hl] at hmem; simp at hmem
  · rcases hn : nodeAt t2 p.dropLast with _ | n
    · rw [hl, hn] at hmem; simp at hmem
    · rw [hl, hn] at hmem
      cases n with
      | elem tag attrs children =>
        simp only [List.mem_map, List.mem_filter, List.mem_range] at hmem
        obtain ⟨j, hj, hpj⟩ := hmem
        have hgl : p.getLast? = some j := by
          rw [← hpj]; exact List.getLast?_concat _
        rw [hl] at hgl
        injection hgl with hij
        omega
      | text s => simp at hmem
      | comment s => simp at hmem
      | dropped => simp at hmem

theorem mem_sliceFromCut_self (l : List NPath) (p : NPath) (cut : Option Nat) :
    p ∈ sliceFromCut (l ++ [p]) cut := by
  cases cut with
  | none => simp [sliceFromCut]
  | some i =>
    simp only [sliceFromCut]
    have hk : (l ++ [p]).length - (i + 1) ≤ l.length := by
      simp only [List.length_append, List.length_cons, List.length_nil]
      omega
    rw [List.drop_append_of_le_length hk]
    simp

theorem sliceFromCut_subset (l : List NPath) (cut : Option Nat) :
    sliceFromCut l cut ⊆ l := by
  cases cut with
  | none => exact fun x hx => hx
  | some i => exact List.drop_subset _ _

/-- Claim C7 counterexample: on `c7tree` the sec_01 locator's collected
range `[[0,0],[0,1]]` contains the end boundary node `[0,1]` itself (via the
`self::*` union), so the end node IS part of the returned section. -/
theorem c7_counterexample :
    sec01EndTarget c7tree = some [0, 1] ∧
    sec01RangePaths c7tree = some [[0, 0], [0, 1]] := ⟨rfl, rfl⟩

/-- Claim C7 (amended): sec_02's range — a slice of the end node's preceding
siblings — never contains the end node, but sec_01's range — a suffix of
`preceding siblings ++ [end node]` — always does; sec_01 then relies on the
rendered-text regex to cut at the end marker. -/
theorem c7_amended (t u : HNode) (sm em sm2 em2 : List Char) (p q : NPath)
    (t2 u2 : HNode) (cut cut2 : Option Nat)
    (h02 : sec02Core t = Loc.found sm em p t2 cut)
    (h01 : sec01Core u = Loc.found sm2 em2 q u2 cut2) :
    (sec02RangePaths t = some (sliceFromCut (precedingSiblingElems t2 p) cut) ∧
      p ∉ sliceFromCut (precedingSiblingElems t2 p) cut) ∧
    (sec01RangePaths u = some (sliceFromCut (precedingSiblingElems u2 q ++ [q]) cut2) ∧
      q ∈ sliceFromCut (precedingSiblingElems u2 q ++ [q]) cut2) := by
  refine ⟨⟨?_, ?_⟩, ?_, ?_⟩
  · unfold sec02RangePaths; rw [h02]
  · intro hmem
    exact not_mem_precSib t2 p (sliceFromCut_subset _ _ hmem)
  · unfold sec01RangePaths; rw [h01]
  · exact mem_sliceFromCut_self _ _ _

/-- Witness for C7's amended theorem: sec_02 on `c2tree`, sec_01 on `c7tree`. -/
theorem c7_amended_witness :
    ([1] : NPath) ∉ sliceFromCut (precedingSiblingElems (cleanTree c2tree) [1]) none ∧
    ([0, 1] : NPath) ∈
      sliceFromCut (precedingSiblingElems (cleanTree c7tree) [0, 1] ++ [[0, 1]]) none := by
  have h := c7_amended c2tree c7tree (lc "Item 1C") (lc "Item 1D") (lc "Item 1C")
    ([] : List Char) [1] [0, 1] (cleanTree c2tree) (cleanTree c7tree) none none rfl rfl
  exact ⟨h.1.2, h.2.2⟩

/-! ### Claim C10 — the descendant filter never leaves an empty list -/

theorem initSeg_length_le (o s : List Nat) (h : initSeg o s = true) :
    o.length ≤ s.length := by
  induction o generalizing s with
  | nil => simp
  | cons a as ih =>
    cases s with
    | nil => simp [initSeg] at h
    | cons b bs =>
      simp only [initSeg, Bool.and_eq_true] at h
      have := ih bs h.2
      simp only [List.length_cons]
      omega

theorem initSeg_eq_of_length (o s : List Nat) (h : initSeg o s = true)
    (hl : s.length ≤ o.length) : o = s := by
  induction o generalizing s with
  | nil =>
    cases s with
    | nil => rfl
    | cons b bs => simp at hl
  | cons a as ih =>
    cases s with
    | nil => simp [initSeg] at h
    | cons b bs =>
      simp only [initSeg, Bool.and_eq_true, decide_eq_true_eq] at h
      obtain ⟨hab, hseg⟩ := h
      subst hab
      simp only [List.length_cons] at hl
      rw [ih bs hseg (by omega)]

theorem exists_min_length (sl : List NPath) (h : sl ≠ []) :
    ∃ m ∈ sl, ∀ x ∈ sl, m.length ≤ x.length := by
  induction sl with
  | nil => exact absurd rfl h
  | cons a rest ih =>
    by_cases hre : rest = []
    · subst hre
      exact ⟨a, by simp, by simp⟩
    · obtain ⟨m, hm, hmin⟩ := ih hre
      by_cases hc : a.length ≤ m.length
      · refine ⟨a, by simp, ?_⟩
        intro x hx
        rcases List.mem_cons.mp hx with h1 | h1
        · subst h1; exact Nat.le_refl _
        · exact Nat.le_trans hc (hmin x h1)
      · refine ⟨m, by simp [hm], ?_⟩
        intro x hx
        rcases List.mem_cons.mp hx with h1 | h1
        · subst h1; omega
        · exact hmin x h1

theorem notDecFilter_ne_nil (sl : List NPath) (h : sl ≠ []) : notDecFilter sl ≠ [] := by
  obtain ⟨m, hm, hmin⟩ := exists_min_length sl h
  have hsurv : m ∈ notDecFilter sl := by
    unfold notDecFilter
    rw [List.mem_filter]
    refine ⟨hm, ?_⟩
    simp only [Bool.not_eq_true', List.any_eq_false]
    intro o ho
    by_contra hfalse
    unfold pathBelow at hfalse
    rw [Bool.and_eq_true, decide_eq_true_eq] at hfalse
    obtain ⟨hne, hseg⟩ := hfalse
    have h1 := initSeg_length_le o m hseg
    have h2 := hmin o ho
    exact hne (initSeg_eq_of_length o m hseg (by omega))
  intro hnil
  rw [hnil] at hsurv
  exact List.not_mem_nil m hsurv

theorem sec02Core_ne_exc (t : HNode) : sec02Core t ≠ Loc.exc := by
  unfold sec02Core
  cases hs : (findAllStart (textContent t)).getLast? with
  | none => simp
  | some sm =>
    cases he : (findAllEnd02 (textContent t)).getLast? with
    | none => simp
    | some em =>
      simp only []
      split
      · simp
      · rename_i hets
        split
        · rename_i hnone
          exfalso
          unfold not_decendants at hnone
          rw [List.getLast?_eq_none_iff] at hnone
          exact notDecFilter_ne_nil _ hets hnone
        · split <;> simp

theorem sec01Core_ne_exc (t : HNode) : sec01Core t ≠ Loc.exc := by
  unfold sec01Core
  cases hs : (findAllStart (textContent t)).getLast? with
  | none => simp
  | some sm =>
    cases he : (findAllEnd01 (textContent t)).getLast? with
    | none => simp
    | some em =>
      simp only []
      split
      · simp
      · rename_i hets
        split
        · rename_i hnone
          exfalso
          unfold not_decendants at hnone
          rw [List.getLast?_eq_none_iff] at hnone
          exact notDecFilter_ne_nil _ hets hnone
        · split <;> simp

/-- Claim C10: for any non-empty candidate list the descendant filter keeps
at least one candidate (a minimal-length path has no strict ancestor in the
list), so `result.pop()` never raises; and since both locators guard the
filter behind a non-emptiness check on the candidate query, neither locator
can raise at all. -/
theorem c10_theorem (sl : List NPath) (h : sl ≠ []) :
    notDecFilter sl ≠ [] ∧
    (∀ (md : List Char → List Char) (t : HNode), parse_item_1c md t ≠ none) ∧
    (∀ (md : List Char → List Char) (t : HNode), parse_method_1 md t ≠ none) := by
  refine ⟨notDecFilter_ne_nil sl h, ?_, ?_⟩
  · intro md t
    unfold parse_item_1c
    cases hc : sec02Core t with
    | absent => simp
    | exc => exact absurd hc (sec02Core_ne_exc t)
    | found sm em p t2 cut => simp
  · intro md t
    unfold parse_method_1
    cases hc : sec01Core t with
    | absent => simp
    | exc => exact absurd hc (sec01Core_ne_exc t)
    | found sm em p t2 cut => simp

/-- Witness for C10 at a concrete candidate list and concrete documents. -/
theorem c10_witness :
    notDecFilter [[0]] ≠ [] ∧
    parse_item_1c idMd c2tree ≠ none ∧
    parse_method_1 idMd c9tree ≠ none := by
  have h := c10_theorem [[0]] (by decide)
  exact ⟨h.1, h.2.1 idMd c2tree, h.2.2 idMd c9tree⟩

/-! ### Claim C1 — infrastructure -/

theorem mapM_some_length {β γ : Type} (f : β → Option γ) :
    ∀ (l : List β) (lr : List γ), l.mapM f = some lr → lr.length = l.length := by
  intro l
  induction l with
  | nil =>
    intro lr h
    simp only [List.mapM_nil] at h
    cases h
    rfl
  | cons a l ih =>
    intro lr h
    rw [List.mapM_cons] at h
    cases hfa : f a with
    | none => rw [hfa] at h; simp at h
    | some b =>
      rw [hfa] at h
      cases hrest : l.mapM f with
      | none => rw [hrest] at h; simp at h
      | some bs =>
        rw [hrest] at h
        simp only [Option.bind_eq_bind, Option.some_bind] at h
        cases h
        simp [ih bs hrest]

theorem mapM_some_getElem? {β γ : Type} (f : β → Option γ) :
    ∀ (l : List β) (lr : List γ), l.mapM f = some lr →
      ∀ i : Nat, lr[i]? = (l[i]?).bind f := by
  intro l
  induction l with
  | nil =>
    intro lr h i
    simp only [List.mapM_nil] at h
    cases h
    simp
  | cons a l ih =>
    intro lr h i
    rw [List.mapM_cons] at h
    cases hfa : f a with
    | none => rw [hfa] at h; simp at h
    | some b =>
      rw [hfa] at h
      cases hrest : l.mapM f with
      | none => rw [hrest] at h; simp at h
      | some bs =>
        rw [hrest] at h
        simp only [Option.bind_eq_bind, Option.some_bind] at h
        cases h
        cases i with
        | zero => simp [hfa]
        | succ n => simp [ih bs hrest n]

theorem foldl_min_le_init : ∀ (ns : List Nat) (b : Nat), ns.foldl Nat.min b ≤ b := by
  intro ns
  induction ns with
  | nil => intro b; simp
  | cons n ns ih =>
    intro b
    simp only [List.foldl_cons]
    exact Nat.le_trans (ih (Nat.min b n)) (Nat.min_le_left _ _)

theorem foldl_min_le_mem : ∀ (ns : List Nat) (b n : Nat), n ∈ ns → ns.foldl Nat.min b ≤ n := by
  intro ns
  induction ns with
  | nil => intro b n h; simp at h
  | cons m ns ih =>
    intro b n h
    rcases List.mem_cons.mp h with h1 | h1
    · subst h1
      simp only [List.foldl_cons]
      exact Nat.le_trans (foldl_min_le_init ns _) (Nat.min_le_right _ _)
    · simp only [List.foldl_cons]
      exact ih _ n h1

theorem foldl_min_of_zero_mem (ns : List Nat) (b : Nat) (h : (0 : Nat) ∈ ns) :
    ns.foldl Nat.min b = 0 := by
  have := foldl_min_le_mem ns b 0 h
  omega

theorem foldl_min_succ : ∀ (ns : List Nat) (b : Nat), (∀ n ∈ ns, 1 ≤ n) →
    ns.foldl Nat.min (b + 1) = 1 + (ns.map (fun n => n - 1)).foldl Nat.min b := by
  intro ns
  induction ns with
  | nil => intro b _; simp; omega
  | cons n ns ih =>
    intro b h
    have hn := h n (by simp)
    simp only [List.foldl_cons, List.map_cons]
    have heq : Nat.min (b + 1) n = Nat.min b (n - 1) + 1 := by
      show min (b + 1) n = min b (n - 1) + 1
      rcases Nat.le_total b (n - 1) with hle | hle
      · rw [Nat.min_eq_left hle, Nat.min_eq_left (by omega : b + 1 ≤ n)]
      · rw [Nat.min_eq_right hle, Nat.min_eq_right (by omega : n ≤ b + 1)]
        omega
    rw [heq, ih (Nat.min b (n - 1)) (fun x hx => h x (by simp [hx]))]

theorem zipNAux_cons_true (a : NPath) (l : List NPath) (ls : List (List NPath))
    (h : ls.any (fun x => x.isEmpty) = true) : zipNAux (a :: l) ls = [] := by
  show (if ls.any (fun x => x.isEmpty) = true then []
    else (a :: ls.filterMap (fun x => x.head?)) :: zipNAux l (ls.map (fun x => x.tail))) = []
  rw [h]
  simp

theorem zipNAux_cons_false (a : NPath) (l : List NPath) (ls : List (List NPath))
    (h : ls.any (fun x => x.isEmpty) = false) :
    zipNAux (a :: l) ls
      = (a :: ls.filterMap (fun x => x.head?)) :: zipNAux l (ls.map (fun x => x.tail)) := by
  show (if ls.any (fun x => x.isEmpty) = true then []
    else (a :: ls.filterMap (fun x => x.head?)) :: zipNAux l (ls.map (fun x => x.tail))) = _
  rw [h]
  simp

theorem zipNAux_length : ∀ (l : List NPath) (ls : List (List NPath)),
    (zipNAux l ls).length = (ls.map List.length).foldl Nat.min l.length := by
  intro l
  induction l with
  | nil =>
    intro ls
    simp only [zipNAux, List.length_nil]
    have h1 := foldl_min_le_init (ls.map List.length) 0
    omega
  | cons a l ih =>
    intro ls
    cases hany : ls.any (fun x => x.isEmpty) with
    | true =>
      rw [zipNAux_cons_true a l ls hany]
      obtain ⟨x, hx, hxe⟩ := List.any_eq_true.mp hany
      have h0 : (0 : Nat) ∈ ls.map List.length := by
        refine List.mem_map.mpr ⟨x, hx, ?_⟩
        rw [List.isEmpty_iff] at hxe
        subst hxe
        rfl
      rw [foldl_min_of_zero_mem _ _ h0]
      rfl
    | false =>
      rw [zipNAux_cons_false a l ls hany]
      simp only [List.length_cons]
      rw [ih (ls.map (fun x => x.tail))]
      have hall : ∀ n ∈ ls.map List.length, 1 ≤ n := by
        intro n hn
        obtain ⟨x, hx, hxl⟩ := List.mem_map.mp hn
        have hne : x.isEmpty = false := by
          cases hq : x.isEmpty
          · rfl
          · exfalso
            have hz : ls.any (fun x => x.isEmpty) = true := List.any_eq_true.mpr ⟨x, hx, hq⟩
            rw [hany] at hz
            simp at hz
        cases x with
        | nil => simp at hne
        | cons y ys => rw [← hxl]; simp
      rw [foldl_min_succ _ _ hall]
      have hmm : (ls.map (fun x => x.tail)).map List.length
          = (ls.map List.length).map (fun n => n - 1) := by
        rw [List.map_map, List.map_map]
        apply List.map_congr_left
        intro x _
        simp [List.length_tail]
      rw [hmm]
      omega

theorem zipN_length : ∀ ls : List (List NPath), (zipN ls).length = listMinLen ls := by
  intro ls
  cases ls with
  | nil => rfl
  | cons l ls2 => exact zipNAux_length l ls2

theorem getElem?_succ_eq_tail {β : Type} (x : List β) (n : Nat) :
    x[n + 1]? = x.tail[n]? := by
  cases x <;> simp

theorem filterMap_head?_eq (ls : List (List NPath)) :
    ls.filterMap (fun x => x.head?) = ls.filterMap (fun x => x[0]?) :=
  List.filterMap_congr (fun x _ => by cases x <;> simp)

theorem filterMap_getElem?_succ (ls : List (List NPath)) (n : Nat) :
    ls.filterMap (fun x => x[n + 1]?)
      = (ls.map (fun x => x.tail)).filterMap (fun x => x[n]?) := by
  rw [List.filterMap_map]
  apply List.filterMap_congr
  intro x _
  show x[n + 1]? = x.tail[n]?
  exact getElem?_succ_eq_tail x n

theorem zipNAux_getElem? : ∀ (i : Nat) (l : List NPath) (ls : List (List NPath)),
    i < (zipNAux l ls).length →
    (zipNAux l ls)[i]? = some ((l :: ls).filterMap (fun x => x[i]?)) := by
  intro i
  induction i with
  | zero =>
    intro l ls hlt
    cases l with
    | nil => simp [zipNAux] at hlt
    | cons a l2 =>
      cases hany : ls.any (fun x => x.isEmpty) with
      | true => rw [zipNAux_cons_true a l2 ls hany] at hlt; simp at hlt
      | false =>
        rw [zipNAux_cons_false a l2 ls hany]
        simp only [List.getElem?_cons_zero]
        rw [filterMap_head?_eq]
        simp [List.filterMap_cons]
  | succ n ih =>
    intro l ls hlt
    cases l with
    | nil => simp [zipNAux] at hlt
    | cons a l2 =>
      cases hany : ls.any (fun x => x.isEmpty) with
      | true => rw [zipNAux_cons_true a l2 ls hany] at hlt; simp at hlt
      | false =>
        rw [zipNAux_cons_false a l2 ls hany] at hlt ⊢
        simp only [List.getElem?_cons_succ]
        rw [ih l2 (ls.map (fun x => x.tail)) (by simpa using hlt)]
        congr 1
        have hmap : (l2 :: ls.map (fun x => x.tail))
            = ((a :: l2) :: ls).map (fun x => x.tail) := by simp
        rw [hmap, ← filterMap_getElem?_succ]

theorem subEntityLists_eq (t : HNode) :
    subEntityLists t = (presentKeys t).map (fun k => namedNodes t k) := by
  unfold subEntityLists presentKeys
  rw [List.filter_map]
  rfl

theorem listMinLen_le (ls : List (List NPath)) (l : List NPath) (h : l ∈ ls) :
    listMinLen ls ≤ l.length := by
  cases ls with
  | nil => simp at h
  | cons l0 ls2 =>
    show (ls2.map List.length).foldl Nat.min l0.length ≤ l.length
    rcases List.mem_cons.mp h with h1 | h1
    · subst h1; exact foldl_min_le_init _ _
    · exact foldl_min_le_mem _ _ _ (List.mem_map.mpr ⟨l, h1, rfl⟩)

theorem comkKeys_nodup : comkKeys.Pairwise (fun a b => a ≠ b) := by decide

theorem comkKeys_clean : ∀ k ∈ comkKeys,
    replaceAll (lc "dei:") [] (lc "dei:" ++ k) = k ∧ k ≠ [] := by decide

theorem mem_namedNodes_attr (t : HNode) (k : List Char) (p : NPath)
    (h : p ∈ namedNodes t k) : attrAt t p (lc "name") = some (lc "dei:" ++ k) := by
  unfold namedNodes at h
  exact of_decide_eq_true (List.mem_filter.mp h).2

theorem cleanName_namedNodes (t : HNode) (k : List Char) (p : NPath)
    (hk : k ∈ comkKeys) (h : p ∈ namedNodes t k) : cleanName t p = some k := by
  unfold cleanName
  rw [mem_namedNodes_attr t k p h]
  obtain ⟨hcl, hne⟩ := comkKeys_clean k hk
  show (if replaceAll (lc "dei:") [] (lc "dei:" ++ k) = [] then none
    else some (replaceAll (lc "dei:") [] (lc "dei:" ++ k))) = some k
  rw [hcl]
  simp [hne]

theorem entries_eq (t : HNode) (i : Nat) :
    ((presentKeys t).filterMap (fun k2 => (namedNodes t k2)[i]?)).filterMap
        (fun p => (cleanName t p).map (fun k2 => (k2, p)))
      = (presentKeys t).filterMap
          (fun k2 => ((namedNodes t k2)[i]?).map (fun p => (k2, p))) := by
  rw [List.filterMap_filterMap]
  apply List.filterMap_congr
  intro k2 hk2
  cases hp : (namedNodes t k2)[i]? with
  | none => rfl
  | some p =>
    have hmem : p ∈ namedNodes t k2 := List.getElem?_mem hp
    have hk2c : k2 ∈ comkKeys := (List.mem_filter.mp hk2).1
    show (cleanName t p).map (fun k2 => (k2, p)) = some (k2, p)
    rw [cleanName_namedNodes t k2 p hk2c hmem]
    rfl

theorem record_find?_mem :
    ∀ (ks : List (List Char)) (pof : List Char → Option NPath)
      (val : NPath → Option (List Char)) (rec0 : List (List Char × List Char))
      (k : List Char),
      ((ks.filterMap (fun k2 => (pof k2).map (fun p => (k2, p)))).mapM
          (fun kp => (val kp.2).map (fun v => (kp.1, v))) = some rec0) →
      (∀ k2 ∈ ks, (pof k2).isSome) →
      ks.Pairwise (fun a b => a ≠ b) →
      k ∈ ks →
      ∃ p v, pof k = some p ∧ val p = some v ∧
        rec0.find? (fun kv => kv.1 = k) = some (k, v) := by
  intro ks
  induction ks with
  | nil => intro pof val rec0 k h hall hnd hk; simp at hk
  | cons k0 ks ih =>
    intro pof val rec0 k h hall hnd hk
    cases hp0 : pof k0 with
    | none =>
      have := hall k0 (by simp)
      rw [hp0] at this
      simp at this
    | some p0 =>
      rw [List.filterMap_cons, hp0] at h
      simp only [Option.map_some'] at h
      rw [List.mapM_cons] at h
      cases hv0 : val p0 with
      | none => rw [hv0] at h; simp at h
      | some v0 =>
        rw [hv0] at h
        cases hrest : (ks.filterMap (fun k2 => (pof k2).map (fun p => (k2, p)))).mapM
            (fun kp => (val kp.2).map (fun v => (kp.1, v))) with
        | none => rw [hrest] at h; simp at h
        | some rec1 =>
          rw [hrest] at h
          simp only [Option.bind_eq_bind, Option.some_bind, Option.map_some'] at h
          cases h
          rw [List.pairwise_cons] at hnd
          by_cases hkk : k = k0
          · subst hkk
            refine ⟨p0, v0, hp0, hv0, ?_⟩
            rw [List.find?_cons_of_pos _ (by simp)]
          · have hkmem : k ∈ ks := by
              rcases List.mem_cons.mp hk with h1 | h1
              · exact absurd h1 hkk
              · exact h1
            obtain ⟨p, v, hp, hv, hfind⟩ :=
              ih pof val rec1 k hrest (fun x hx => hall x (by simp [hx])) hnd.2 hkmem
            refine ⟨p, v, hp, hv, ?_⟩
            rw [List.find?_cons_of_neg _ (by simp; exact Ne.symm hkk), hfind]

theorem record_find?_not_mem :
    ∀ (ks : List (List Char)) (pof : List Char → Option NPath)
      (val : NPath → Option (List Char)) (rec0 : List (List Char × List Char))
      (k : List Char),
      ((ks.filterMap (fun k2 => (pof k2).map (fun p => (k2, p)))).mapM
          (fun kp => (val kp.2).map (fun v => (kp.1, v))) = some rec0) →
      (∀ k2 ∈ ks, (pof k2).isSome) →
      k ∉ ks →
      rec0.find? (fun kv => kv.1 = k) = none := by
  intro ks
  induction ks with
  | nil =>
    intro pof val rec0 k h hall hk
    simp only [List.filterMap_nil, List.mapM_nil] at h
    cases h
    rfl
  | cons k0 ks ih =>
    intro pof val rec0 k h hall hk
    cases hp0 : pof k0 with
    | none =>
      have := hall k0 (by simp)
      rw [hp0] at this
      simp at this
    | some p0 =>
      rw [List.filterMap_cons, hp0] at h
      simp only [Option.map_some'] at h
      rw [List.mapM_cons] at h
      cases hv0 : val p0 with
      | none => rw [hv0] at h; simp at h
      | some v0 =>
        rw [hv0] at h
        cases hrest : (ks.filterMap (fun k2 => (pof k2).map (fun p => (k2, p)))).mapM
            (fun kp => (val kp.2).map (fun v => (kp.1, v))) with
        | none => rw [hrest] at h; simp at h
        | some rec1 =>
          rw [hrest] at h
          simp only [Option.bind_eq_bind, Option.some_bind, Option.map_some'] at h
          cases h
          have hne : k0 ≠ k := fun he => hk (by simp [he])
          rw [List.find?_cons_of_neg _ (by simp [hne]), ih pof val rec1 k hrest
            (fun x hx => hall x (by simp [hx])) (fun hc => hk (by simp [hc]))]

theorem find?_map_NA (k : List Char) :
    ∀ ks2 : List (List Char), k ∈ ks2 →
      (((ks2.map (fun k2 => (k2, NAval))).find? (fun kv => kv.1 = k)).map
        (fun kv => kv.2)) = some NAval := by
  intro ks2
  induction ks2 with
  | nil => intro h; simp at h
  | cons k2 ks2 ih =>
    intro h
    by_cases hk2 : k2 = k
    · rw [List.map_cons, List.find?_cons_of_pos _ (by simp [hk2])]
      rfl
    · rcases List.mem_cons.mp h with h1 | h1
      · exact absurd h1.symm hk2
      · rw [List.map_cons, List.find?_cons_of_neg _ (by simp [hk2])]
        exact ih h1

/-- Claim C1 counterexample: `c1tree` has 2 sub-entities but the
`EntityTaxIdentificationNumber` tag on only one of them, and `zip(*lists)`
truncates the extracted record list to ONE record — not the two records
(second filled with "N/A") the claim demands. -/
theorem c1_counterexample :
    (namedNodes c1tree (lc "EntityRegistrantName")).length = 2 ∧
    (namedNodes c1tree (lc "EntityTaxIdentificationNumber")).length = 1 ∧
    (parse_entity_companies c1tree).map List.length = some 1 := ⟨rfl, rfl, rfl⟩

/-- Claim C1 (amended): the extractor returns `min` over the occurrence
counts of the tags that occur at least once (so a field present in
`0 < m < n` nodes truncates the output to `m` records); every returned
record has the full uniform key set, the `i`-th record holding the `i`-th
occurrence's text for each present field and the "N/A" sentinel exactly for
the fields present in no node. -/
theorem c1_amended (t : HNode) (recs : List (List (List Char × List Char)))
    (h : parse_entity_companies t = some recs) :
    recs.length = minPresentLen t ∧
    ∀ (i : Nat) (r : List (List Char × List Char)), recs[i]? = some r →
      ∀ k ∈ comkKeys,
        alookup k r = ((namedNodes t k).map (fun p => nodeText02 t p)).getD i
          (some NAval) := by
  unfold parse_entity_companies at h
  have hlen := mapM_some_length _ _ _ h
  refine ⟨by rw [hlen, zipN_length]; rfl, ?_⟩
  intro i r hr k hk
  have hgi := mapM_some_getElem? _ _ _ h i
  rw [hr] at hgi
  cases hzi : (zipN (subEntityLists t))[i]? with
  | none => rw [hzi] at hgi; simp at hgi
  | some c =>
    rw [hzi] at hgi
    have hgi2 : some r = (recordOf t c).map naFill := hgi
    cases hrec : recordOf t c with
    | none => rw [hrec] at hgi2; simp at hgi2
    | some rec0 =>
      rw [hrec] at hgi2
      have hrn : r = naFill rec0 := by
        have h3 : some r = some (naFill rec0) := hgi2
        injection h3
      subst hrn
      have hilt : i < (zipN (subEntityLists t)).length := by
        by_contra hge
        rw [List.getElem?_eq_none (by omega)] at hzi
        exact Option.noConfusion hzi
      have hminall : ∀ k2 ∈ presentKeys t, i < (namedNodes t k2).length := by
        intro k2 hk2
        have hmem : namedNodes t k2 ∈ subEntityLists t := by
          rw [subEntityLists_eq]
          exact List.mem_map.mpr ⟨k2, hk2, rfl⟩
        have h4 := listMinLen_le _ _ hmem
        rw [zipN_length] at hilt
        omega
      have hall : ∀ k2 ∈ presentKeys t, ((namedNodes t k2)[i]?).isSome := by
        intro k2 hk2
        rw [List.getElem?_eq_getElem (hminall k2 hk2)]
        rfl
      have hcform : c = (presentKeys t).filterMap (fun k2 => (namedNodes t k2)[i]?) := by
        cases hls : subEntityLists t with
        | nil =>
          rw [hls] at hzi
          simp [zipN] at hzi
        | cons l0 ls2 =>
          rw [hls] at hzi hilt
          have h5 := zipNAux_getElem? i l0 ls2 hilt
          have hzi2 : (zipNAux l0 ls2)[i]? = some c := hzi
          rw [h5] at hzi2
          have h6 : c = (l0 :: ls2).filterMap (fun x => x[i]?) := by
            injection hzi2 with h7
            exact h7.symm
          rw [h6, ← hls, subEntityLists_eq, List.filterMap_map]
          rfl
      rw [hcform] at hrec
      unfold recordOf at hrec
      rw [entries_eq t i] at hrec
      have hpw : (presentKeys t).Pairwise (fun a b => a ≠ b) :=
        List.Pairwise.filter _ comkKeys_nodup
      by_cases hkp : k ∈ presentKeys t
      · obtain ⟨p, v, hpof, hval, hfind⟩ := record_find?_mem (presentKeys t)
          (fun k2 => (namedNodes t k2)[i]?) (fun p => nodeText02 t p) rec0 k hrec
          hall hpw hkp
        unfold alookup naFill
        rw [List.find?_append, hfind]
        rw [List.getD_eq_getElem?_getD, List.getElem?_map, hpof]
        simp [hval]
      · have hnn : namedNodes t k = [] := by
          by_contra hne
          exact hkp (List.mem_filter.mpr ⟨hk, decide_eq_true hne⟩)
        have hfindnone := record_find?_not_mem (presentKeys t)
          (fun k2 => (namedNodes t k2)[i]?) (fun p => nodeText02 t p) rec0 k hrec
          hall hkp
        unfold alookup naFill
        rw [List.find?_append, hfindnone]
        simp only [Option.none_or]
        rw [hnn]
        simp only [List.map_nil, List.getD_eq_getElem?_getD, List.getElem?_nil,
          Option.getD_none]
        apply find?_map_NA
        refine List.mem_filter.mpr ⟨hk, ?_⟩
        have hany0 : rec0.any (fun kv => kv.1 = k) = false := by
          rw [List.any_eq_false]
          intro x hx
          exact List.find?_eq_none.mp hfindnone x hx
        rw [hany0]
        rfl

/-- Witness for C1's amended theorem at `c1tree`. -/
theorem c1_amended_witness :
    c1recs.length = minPresentLen c1tree ∧
    alookup (lc "EntityTaxIdentificationNumber") (c1recs.getD 0 [])
      = ((namedNodes c1tree (lc "EntityTaxIdentificationNumber")).map
          (fun p => nodeText02 c1tree p)).getD 0 (some NAval) := by
  have h := c1_amended c1tree c1recs rfl
  exact ⟨h.1, h.2 0 (c1recs.getD 0 []) rfl (lc "EntityTaxIdentificationNumber")
    (by decide)⟩

end Scrape
